import Mathlib

/-!
Shallow embedding of the fpar library (a data-parallel Backus-FP evaluation
engine, C++17) and proofs about its primitives and functional forms.

The repository contains two implementation variants:
* an `immer`-based variant whose value type is `Object<Ts...>`, a
  `std::variant` of `std::monostate` (Bottom), `bool`, `size_t`, further
  configured kinds, and `immer::flex_vector<immer::box<Object>>` (Sequence);
  its primitives live in `Functions.hpp` and its forms in `Functionals.hpp`;
* a `shared_ptr`-based variant whose values are `ObjectPtr = shared_ptr<Object>`
  (nullptr is Bottom) pointing at `Atom<T>` or `Sequence` (a deque of
  `ObjectPtr`).

Namespace `Fpar` embeds the immer variant (instantiated, as in the tests, with
the built-in `size_t` atomic kind standing for the numeric kind `O`);
namespace `FpPtr` embeds the pointer variant.  C++ behavior that is not a
value — a thrown `std::bad_variant_access`, or an out-of-bounds deque/iterator
access (undefined behavior) — is modelled by `Option`, with `none` marking the
loud failure and `some v` a normally returned value.
-/

namespace Fpar

/-- The `Object<Ts...>` variant: `std::monostate` (Bottom), `bool`, `size_t`,
and `immer::flex_vector<immer::box<Object>>` (Sequence).  `immer::box` only
heap-allocates the element, so it is transparent in the model. -/
inductive Value where
  | bottom
  | boolV (b : Bool)
  | natV (n : Nat)
  | seqV (s : List Value)

/-- `Object::isBottom()`: the variant holds `std::monostate`. -/
def Value.isBottom : Value → Bool
  | .bottom => true
  | _ => false

/-- `Object::isSequence()`: the variant holds the flex_vector alternative. -/
def Value.isSequence : Value → Bool
  | .seqV _ => true
  | _ => false

/-- `Object::is<bool>()`. -/
def Value.isBool : Value → Bool
  | .boolV _ => true
  | _ => false

/-- `Object::is<size_t>()` for the numeric kind used by the tests. -/
def Value.isNat : Value → Bool
  | .natV _ => true
  | _ => false

/-- `std::get<bool>` on the variant (the conversion `operator T` with
`T = bool`): yields the stored boolean, or throws `std::bad_variant_access`
(modelled `none`) when the variant holds another alternative. -/
def Value.getBoolEx : Value → Option Bool
  | .boolV b => some b
  | _ => none

/-- Primitive `atom` (Functions.hpp, immer variant): Bottom propagates; a
sequence is an atom exactly when its size is 0; every other value is an atom. -/
def atom (x : Value) : Value :=
  match x with
  | .bottom => .bottom
  | .seqV s => if s.length = 0 then .boolV true else .boolV false
  | _ => .boolV true

mutual

/-- Body of primitive `equals<O>` (Functions.hpp, immer variant, `O = size_t`)
once the operand has been split into the pair `⟨y, z⟩`: atoms of kind `O`
compare by value; two sequences compare first by size and then pairwise,
recursing through `equals` on the freshly built two-element pair (which
re-enters this body); every other combination falls through to `false`. -/
def eqAux : Value → Value → Value
  | .natV a, .natV b => .boolV (a == b)
  | .seqV ys, .seqV zs =>
      if ys.length ≠ zs.length then .boolV false else eqList ys zs
  | _, _ => .boolV false

/-- The element loop of `equals<O>`: a Bottom recursive result propagates, a
false one stops with `false`, and exhausting the first sequence yields `true`. -/
def eqList : List Value → List Value → Value
  | [], _ => .boolV true
  | y :: ys, z :: zs =>
      match eqAux y z with
      | .bottom => .bottom
      | .boolV false => .boolV false
      | _ => eqList ys zs
  | _ :: _, [] => .boolV true

end

/-- Primitive `equals<O>` (Functions.hpp, immer variant, `O = size_t`):
Bottom or non-sequence operand, or an operand that is not a pair, yields
Bottom; otherwise the pair is compared structurally by `eqAux`. -/
def equals (x : Value) : Value :=
  match x with
  | .seqV [y, z] => eqAux y z
  | .seqV _ => .bottom
  | _ => .bottom

/-- Primitive `div_op<O>` (Functions.hpp, immer variant, `O = size_t`).  The
shape checks mirror the source: Bottom/non-sequence operand, wrong arity,
Bottom element, or an element that is not an atom of kind `O` all give Bottom,
and a zero divisor gives Bottom.  The source then executes `bool y = _y;` —
`std::get<bool>` on a variant holding `size_t` — which throws
`std::bad_variant_access` (`none`); had it not thrown, it would return the
bool-coerced numerator divided by `z`. -/
def div_op (x : Value) : Option Value :=
  match x with
  | .seqV [y, z] =>
      if y.isBottom || z.isBottom then some .bottom
      else
        match y, z with
        | .natV _, .natV zv =>
            if zv = 0 then some .bottom
            else
              match y.getBoolEx with
              | none => none
              | some yb => some (.natV ((if yb then 1 else 0) / zv))
        | _, _ => some .bottom
  | .seqV _ => some .bottom
  | _ => some .bottom

/-- First loop of primitive `trans` (Functions.hpp, immer variant): every row
must be a non-Bottom sequence (otherwise `trans` returns Bottom); the model
extracts the element lists of the rows. -/
def toRow : Value → Option (List Value)
  | .seqV s => some s
  | _ => none

/-- The `els` computation of `trans`: starting from 0, a row updates the
count when the count is still 0 or the row is shorter. -/
def elsOf (rows : List (List Value)) : Nat :=
  rows.foldl (fun e r => if e = 0 ∨ r.length < e then r.length else e) 0

/-- Primitive `trans` (Functions.hpp, immer variant).  After the first loop
has checked every row and computed `els`, the second loop builds, for each
`i < els`, the row collecting the `i`-th element of every input row by
dereferencing and advancing the saved per-row iterators; dereferencing an
iterator at or past a row's end is undefined behavior, modelled `none`. -/
def trans (x : Value) : Option Value :=
  match x with
  | .seqV l =>
      match l.mapM toRow with
      | none => some .bottom
      | some rows =>
          match (List.range (elsOf rows)).mapM
              (fun i => rows.mapM (fun r => r.get? i)) with
          | none => none
          | some t => some (.seqV (t.map .seqV))
  | _ => some .bottom

/-- Two applications of `trans`, the second on the result of the first (for
the transpose-involution property). -/
def transTwice (x : Value) : Option Value :=
  (trans x).bind trans

/-- The combinator `insert` builds from its parameter `f`: in Backus FP binary
operations are unary operations on pairs, so the accumulate step wraps the two
operands into a two-element sequence. -/
def comb (f : Value → Value) (a b : Value) : Value :=
  f (.seqV [a, b])

/-- Functional form `insert` (Functionals.hpp, immer variants — the OpenMP and
the cilk file have the same arithmetic).  Bottom/non-sequence operand and the
empty sequence give Bottom.  Sequential mode is `std::accumulate` over the
whole sequence seeded with `n`.  Parallel mode partitions the `els` elements
into `nthreads` contiguous chunks `[els*i/N, els*(i+1)/N)`, folds each chunk
seeded with `n` into `locals[i]`, then accumulates `locals` seeded with `n`. -/
def insert (f : Value → Value) (n : Value) (par : Bool) (nthreads : Nat)
    (x : Value) : Value :=
  match x with
  | .seqV s =>
      if s.length = 0 then .bottom
      else if par then
        let els := s.length
        let locals := (List.range nthreads).map (fun i =>
          ((s.drop (els * i / nthreads)).take
              (els * (i + 1) / nthreads - els * i / nthreads)).foldl
            (comb f) n)
        locals.foldl (comb f) n
      else s.foldl (comb f) n
  | _ => .bottom

/-- Functional form `apply_to_all` (Functionals.hpp, immer variants).  Both
the parallel branch (a cilk_for / omp-for writing `f(s[i])` into the pre-sized
slot `i`, each slot owned by exactly one task) and the sequential branch (the
same loop in index order) fill slot `i` with `f(s[i])`. -/
def apply_to_all (f : Value → Value) (par : Bool) (x : Value) : Value :=
  match x with
  | .seqV s =>
      if par then
        .seqV ((List.range s.length).map (fun i => f (s.getD i .bottom)))
      else
        .seqV ((List.range s.length).map (fun i => f (s.getD i .bottom)))
  | _ => .bottom

/-- Functional form `while_form` (Functionals.hpp, immer variants): a do-while
loop.  Each pass checks `_x` for Bottom, evaluates the guard `px = p(_x)`,
checks it for Bottom, updates `_x = f(_x)`, then checks that `px` holds a
bool (`std::get<bool>` view) and loops while it is true.  `fuel` bounds the
number of passes; `none` means the bound was reached, so a terminating C++ run
is reproduced by any sufficiently large fuel. -/
def while_form (p f : Value → Value) : Nat → Value → Option Value
  | 0, _ => none
  | fuel + 1, x =>
      if x.isBottom then some .bottom
      else
        let px := p x
        if px.isBottom then some .bottom
        else
          let y := f x
          match px.getBoolEx with
          | none => some .bottom
          | some true => while_form p f fuel y
          | some false => some y

/-- A concrete reduction operand for exercising `insert`: lifted addition on
the numeric atoms, with Bottom acting as the supplied neutral (any value
combined with Bottom is returned unchanged) and every other mixed combination
collapsing to a fixed junk value.  This is a total, associative operation on
`Value` with the two-sided identity `.bottom`. -/
def wAdd (a b : Value) : Value :=
  match a, b with
  | .bottom, w => w
  | v, .bottom => v
  | .natV x, .natV y => .natV (x + y)
  | _, _ => .boolV false

/-- `wAdd` packaged Backus-style as a unary function on pairs, the shape
`insert` expects for its parameter `f`. -/
def wAddF : Value → Value
  | .seqV [a, b] => wAdd a b
  | _ => .bottom

/-- The guard `p = "x<3"` of spec Scenario 5. -/
def ltThree : Value → Value
  | .natV k => .boolV (decide (k < 3))
  | _ => .bottom

/-- The body `f = "x+1"` of spec Scenario 5. -/
def addOne : Value → Value
  | .natV k => .natV (k + 1)
  | _ => .bottom

end Fpar

namespace FpPtr

/-- The `ObjectPtr` variant: a null `shared_ptr<Object>` is Bottom, otherwise
the object is an `Atom<T>` (here the numeric kind) or a `Sequence` (a deque of
`ObjectPtr`). -/
inductive PObj where
  | bottom
  | atomN (n : Nat)
  | pseq (s : List PObj)

/-- The nullptr comparison `x == Bottom` on an `ObjectPtr`. -/
def PObj.isBot : PObj → Bool
  | .bottom => true
  | _ => false

/-- Primitive `apndl` (Functions.hpp, shared_ptr variant).  After the nullptr
check the source immediately reads `x->front()` and `x->back()` — with no
`size() == 2` check, and on an empty deque `front()` is undefined behavior
(`none`).  A Bottom or non-Sequence second component gives Bottom; otherwise
the element read from `front()` is pushed at the front of a copy of the
sequence read from `back()`. -/
def apndl (x : Option (List PObj)) : Option PObj :=
  match x with
  | none => some .bottom
  | some [] => none
  | some (y :: rest) =>
      let zs := rest.getLastD y
      if zs.isBot then some .bottom
      else
        match zs with
        | .pseq zl => some (.pseq (y :: zl))
        | _ => some .bottom

/-- Functional form `insert` (Functionals.hpp, shared_ptr variant).  A null
sequence gives Bottom; the empty sequence returns `uf` (the neutral, whose
default is Bottom); when no neutral was supplied (`uf == Bottom`) the fold
starts from the first element over the rest, otherwise from `uf` over all
elements.  The combinator wraps the operands into a two-element sequence. -/
def insert (f : Option (List PObj) → PObj) (uf : PObj)
    (x : Option (List PObj)) : PObj :=
  match x with
  | none => .bottom
  | some [] => uf
  | some (h :: t) =>
      if uf.isBot then t.foldl (fun a b => f (some [a, b])) h
      else (h :: t).foldl (fun a b => f (some [a, b])) uf

end FpPtr

namespace Fpar

/-- C10: the atom predicate classifies the empty sequence as an atom — Bottom
maps to Bottom, a length-0 sequence to true, a non-empty sequence to false,
and every non-Undefined non-sequence value to true. -/
theorem atom_classification :
    atom .bottom = .bottom ∧
    atom (.seqV []) = .boolV true ∧
    (∀ v vs, atom (.seqV (v :: vs)) = .boolV false) ∧
    (∀ b, atom (.boolV b) = .boolV true) ∧
    (∀ n, atom (.natV n) = .boolV true) :=
  ⟨rfl, rfl, fun _ _ => rfl, fun _ => rfl, fun _ => rfl⟩

/-- C4 (counterexample): `equals` applied to the pair `⟨Undefined, 1⟩` returns
the Boolean false, not Undefined — both branches of the comparison fail on the
Bottom element and the source falls through to `return false`. -/
theorem equals_bottom_counterexample :
    equals (.seqV [.bottom, .natV 1]) = .boolV false ∧
    Value.boolV false ≠ Value.bottom :=
  ⟨rfl, fun h => Value.noConfusion h⟩

/-- C4 (amended): `equals` applied to the pair `⟨Undefined, y⟩` returns the
Boolean false for every value `y`; `equals` returns Undefined only when its
whole operand is Undefined, not a sequence, or not a two-element sequence. -/
theorem equals_bottom_operand_false (y : Value) :
    equals (.seqV [.bottom, y]) = .boolV false :=
  rfl

/-- C9: `div_op<size_t>` on the well-formed pair `⟨4, 2⟩` never produces the
quotient: after the kind checks succeed and the divisor is non-zero, the
source executes `bool y = _y;` — `std::get<bool>` on a variant holding
`size_t` — which throws `std::bad_variant_access` (modelled `none`).  Division
by zero and a Bottom operand do yield Undefined as claimed. -/
theorem div_op_bad_variant :
    div_op (.seqV [.natV 4, .natV 2]) = none ∧
    div_op (.seqV [.natV 4, .natV 0]) = some .bottom ∧
    div_op (.seqV [.bottom, .natV 2]) = some .bottom :=
  ⟨rfl, rfl, rfl⟩

/-- C2: the shared_ptr-variant `apndl` has no arity check — on the
three-element operand `⟨1, 2, ⟨3⟩⟩` it returns the defined sequence `⟨1, 3⟩`
(prepending `front()` to `back()`) instead of Undefined, and on the empty
operand it calls `front()` on an empty deque, which is undefined behavior
(modelled `none`) rather than a soft Undefined. -/
theorem apndl_no_arity_check :
    FpPtr.apndl (some [.atomN 1, .atomN 2, .pseq [.atomN 3]]) =
      some (.pseq [.atomN 1, .atomN 3]) ∧
    FpPtr.PObj.pseq [.atomN 1, .atomN 3] ≠ FpPtr.PObj.bottom ∧
    FpPtr.apndl (some []) = none :=
  ⟨rfl, fun h => FpPtr.PObj.noConfusion h, rfl⟩

/-- C5 (counterexample): the immer-variant `insert`, which always receives a
neutral, returns Undefined on the empty sequence even though the neutral 7
was supplied. -/
theorem insert_empty_counterexample :
    insert (fun _ => .bottom) (.natV 7) false 1 (.seqV []) = .bottom ∧
    Value.bottom ≠ Value.natV 7 :=
  ⟨rfl, fun h => Value.noConfusion h⟩

/-- C5 (amended): on the empty sequence the immer-variant `insert` returns
Undefined regardless of the supplied neutral, for both modes and any worker
count, while the shared_ptr-variant `insert` returns `uf` — the supplied
neutral, or Undefined when none was supplied (its default is Bottom). -/
theorem insert_empty_seq (f : Value → Value) (n : Value) (par : Bool)
    (N : Nat) (g : Option (List FpPtr.PObj) → FpPtr.PObj) (uf : FpPtr.PObj) :
    insert f n par N (.seqV []) = .bottom ∧ FpPtr.insert g uf (some []) = uf :=
  ⟨rfl, rfl⟩

/-- C7: `trans` on `⟨⟨⟩, ⟨1, 2⟩⟩` — every element a row-sequence, shortest
row length 0 — does not return the length-0 transpose: the `els` fold treats
`els == 0` as a first-iteration sentinel, so the empty first row is forgotten
and `els` becomes 2, and the copy loop then dereferences the empty row's
iterator past its end (undefined behavior, modelled `none`). -/
theorem trans_empty_row_ub :
    trans (.seqV [.seqV [], .seqV [.natV 1, .natV 2]]) = none ∧
    elsOf [[], [.natV 1, .natV 2]] = 2 :=
  ⟨rfl, rfl⟩

/-- C8 (counterexample): the rectangular input `⟨⟨⟩⟩` — one row of length 0 —
is not recovered by a double transpose: `trans(⟨⟨⟩⟩) = ⟨⟩` and
`trans(⟨⟩) = ⟨⟩ ≠ ⟨⟨⟩⟩`. -/
theorem trans_involution_counterexample :
    transTwice (.seqV [.seqV []]) = some (.seqV []) ∧
    some (Value.seqV []) ≠ some (Value.seqV [Value.seqV []]) :=
  ⟨rfl, by simp⟩

/-- C6 (counterexample): with the Undefined input, a guard that is false on
it, and a body that ignores its argument, `while_form` returns Undefined
rather than the body's value — the Bottom check on `_x` precedes the first
body application, so the body is not applied to an Undefined input. -/
theorem while_form_bottom_counterexample :
    (fun _ : Value => Value.boolV false) Value.bottom = Value.boolV false ∧
    while_form (fun _ => .boolV false) (fun _ => .natV 7) 1 .bottom =
      some .bottom ∧
    some Value.bottom ≠ some ((fun _ : Value => Value.natV 7) Value.bottom) :=
  ⟨rfl, rfl, by simp⟩

/-- C6 (amended): for every non-Undefined input `x` whose guard value `p(x)`
is the Boolean false, `while_form(p, f)(x) = f(x)`: the body runs once before
the guard — evaluated on the pre-update `x` — is consulted (do-while). -/
theorem while_form_do_while (p f : Value → Value) (x : Value) (fuel : Nat)
    (hx : x.isBottom = false) (hp : p x = .boolV false) :
    while_form p f (fuel + 1) x = some (f x) := by
  unfold while_form
  rw [hx, hp]
  rfl

/-- Witness for C6: spec Scenario 5 — `while_form(p = "x<3", f = "x+1")`
applied to 5 yields 6, the body executing once before the already-false
guard halts the loop. -/
theorem while_form_do_while_witness :
    while_form ltThree addOne 1 (.natV 5) = some (.natV 6) :=
  while_form_do_while ltThree addOne (.natV 5) 0 rfl rfl

end Fpar

namespace Fpar

/-- Enumerating a list by `List.range` over its length and reading each index
back with `getD` is the same as mapping over the list. -/
theorem map_range_getD {α β : Type} (l : List α) (d : α) (g : α → β) :
    (List.range l.length).map (fun i => g (l.getD i d)) = l.map g := by
  induction l with
  | nil => rfl
  | cons h t ih =>
      rw [List.length_cons, List.range_succ_eq_map, List.map_cons,
        List.map_map]
      simp only [List.getD_cons_zero, Function.comp_def, List.getD_cons_succ]
      rw [ih]
      rfl

/-- C3: for every function, input sequence and mode, apply-to-all returns a
sequence of the same length whose i-th element is the image of the i-th input
element, and the parallel and sequential modes produce identical outputs. -/
theorem apply_to_all_map_hom (f : Value → Value) (s : List Value)
    (par : Bool) :
    (∃ out : List Value, apply_to_all f par (.seqV s) = .seqV out ∧
      out.length = s.length ∧ ∀ i, out.get? i = (s.get? i).map f) ∧
    apply_to_all f true (.seqV s) = apply_to_all f false (.seqV s) := by
  have hmap : ∀ b : Bool, apply_to_all f b (.seqV s) = .seqV (s.map f) := by
    intro b
    have hb : apply_to_all f b (.seqV s)
        = .seqV ((List.range s.length).map (fun i => f (s.getD i .bottom))) := by
      cases b <;> rfl
    rw [hb, map_range_getD]
  refine ⟨⟨s.map f, hmap par, List.length_map s f, ?_⟩,
    (hmap true).trans (hmap false).symm⟩
  intro i
  simp [List.get?_eq_getElem?, List.getElem?_map]

/-- Shifting the seed out of a fold: when `g` is associative with two-sided
identity `n`, a fold seeded with `a` equals `a` combined with the fold seeded
with `n`. -/
theorem foldl_comb_shift (g : Value → Value → Value) (n : Value)
    (hassoc : ∀ a b c, g (g a b) c = g a (g b c))
    (hid : ∀ a, g n a = a ∧ g a n = a)
    (l : List Value) : ∀ a : Value, l.foldl g a = g a (l.foldl g n) := by
  induction l with
  | nil => exact fun a => ((hid a).2).symm
  | cons h t ih =>
      intro a
      calc (h :: t).foldl g a = t.foldl g (g a h) := rfl
        _ = g (g a h) (t.foldl g n) := ih (g a h)
        _ = g a (g h (t.foldl g n)) := hassoc a h _
        _ = g a (t.foldl g h) := by rw [ih h]
        _ = g a (t.foldl g (g n h)) := by rw [(hid h).1]
        _ = g a ((h :: t).foldl g n) := rfl

/-- A fold of a concatenation splits into the combination of two folds. -/
theorem foldl_comb_append (g : Value → Value → Value) (n : Value)
    (hassoc : ∀ a b c, g (g a b) c = g a (g b c))
    (hid : ∀ a, g n a = a ∧ g a n = a)
    (l₁ l₂ : List Value) :
    (l₁ ++ l₂).foldl g n = g (l₁.foldl g n) (l₂.foldl g n) := by
  rw [List.foldl_append]
  exact foldl_comb_shift g n hassoc hid l₂ (l₁.foldl g n)

/-- Folding the per-chunk partial results (each seeded with the identity)
equals folding the concatenation of the chunks. -/
theorem foldl_comb_flatten (g : Value → Value → Value) (n : Value)
    (hassoc : ∀ a b c, g (g a b) c = g a (g b c))
    (hid : ∀ a, g n a = a ∧ g a n = a)
    (cs : List (List Value)) :
    (cs.map (fun c => c.foldl g n)).foldl g n = cs.flatten.foldl g n := by
  induction cs with
  | nil => rfl
  | cons c cs ih =>
      calc ((c :: cs).map (fun c => c.foldl g n)).foldl g n
          = (cs.map (fun c => c.foldl g n)).foldl g (g n (c.foldl g n)) := rfl
        _ = (cs.map (fun c => c.foldl g n)).foldl g (c.foldl g n) := by
              rw [(hid (c.foldl g n)).1]
        _ = g (c.foldl g n) ((cs.map (fun c => c.foldl g n)).foldl g n) :=
              foldl_comb_shift g n hassoc hid _ _
        _ = g (c.foldl g n) (cs.flatten.foldl g n) := by rw [ih]
        _ = (c ++ cs.flatten).foldl g n :=
              (foldl_comb_append g n hassoc hid c cs.flatten).symm
        _ = ((c :: cs).flatten).foldl g n := by rw [List.flatten_cons]

/-- The contiguous chunks `[els*i/N, els*(i+1)/N)` for `i < N` concatenate
back to the whole sequence. -/
theorem chunks_flatten (s : List Value) (N : Nat) (hN : 1 ≤ N) :
    ((List.range N).map (fun i =>
      (s.drop (s.length * i / N)).take
        (s.length * (i + 1) / N - s.length * i / N))).flatten = s := by
  have key : ∀ k : Nat, ((List.range k).map (fun i =>
      (s.drop (s.length * i / N)).take
        (s.length * (i + 1) / N - s.length * i / N))).flatten
      = s.take (s.length * k / N) := by
    intro k
    induction k with
    | zero => simp
    | succ k ih =>
        rw [List.range_succ, List.map_append, List.flatten_append, ih]
        have hmono : s.length * k / N ≤ s.length * (k + 1) / N :=
          Nat.div_le_div_right
            (Nat.mul_le_mul (Nat.le_refl s.length) (Nat.le_succ k))
        have hsplit : s.length * (k + 1) / N
            = s.length * k / N + (s.length * (k + 1) / N
              - s.length * k / N) := by omega
        rw [hsplit, List.take_add]
        simp
  have hN0 : 0 < N := hN
  rw [key N, Nat.mul_div_cancel s.length hN0, List.take_length]

/-- C1: for every sequence, every `f` whose pair-combinator is associative,
every true two-sided identity `neutral` for it, and every worker count of at
least one (hence every count from 1 up to the pool size), the parallel
chunk-partitioned fold of `insert(f, neutral)` returns the same value as the
sequential fold. -/
theorem insert_par_eq_seq (f : Value → Value) (n : Value) (s : List Value)
    (N : Nat) (hN : 1 ≤ N)
    (hassoc : ∀ a b c, comb f (comb f a b) c = comb f a (comb f b c))
    (hid : ∀ a, comb f n a = a ∧ comb f a n = a) :
    insert f n true N (.seqV s) = insert f n false N (.seqV s) := by
  have hP : ((List.range N).map (fun i =>
      ((s.drop (s.length * i / N)).take
        (s.length * (i + 1) / N - s.length * i / N)).foldl
          (comb f) n)).foldl (comb f) n = s.foldl (comb f) n := by
    have hflat := foldl_comb_flatten (comb f) n hassoc hid
      ((List.range N).map (fun i =>
        (s.drop (s.length * i / N)).take
          (s.length * (i + 1) / N - s.length * i / N)))
    rw [List.map_map, chunks_flatten s N hN] at hflat
    simpa [Function.comp_def] using hflat
  by_cases h0 : s.length = 0
  · simp [insert, h0]
  · simp only [insert, h0, if_false, if_true]
    exact hP

end Fpar

namespace Fpar

/-- The pair-combinator of `wAddF` is `wAdd` itself. -/
theorem comb_wAddF (a b : Value) : comb wAddF a b = wAdd a b := rfl

/-- `wAdd` is associative on all values. -/
theorem wAdd_assoc (a b c : Value) :
    wAdd (wAdd a b) c = wAdd a (wAdd b c) := by
  cases a <;> cases b <;> cases c <;> simp [wAdd, Nat.add_assoc]

/-- `.bottom` is a two-sided identity for `wAdd`. -/
theorem wAdd_id (a : Value) :
    wAdd .bottom a = a ∧ wAdd a .bottom = a := by
  cases a <;> exact ⟨rfl, rfl⟩

/-- Witness for C1: with the associative `wAddF` and its identity, two workers
on the sequence `⟨1, 2, 3⟩` (chunks `⟨1⟩` and `⟨2, 3⟩`) agree with the
sequential fold, both yielding 6. -/
theorem insert_par_eq_seq_witness :
    insert wAddF .bottom true 2 (.seqV [.natV 1, .natV 2, .natV 3]) =
      insert wAddF .bottom false 2 (.seqV [.natV 1, .natV 2, .natV 3]) ∧
    insert wAddF .bottom false 2 (.seqV [.natV 1, .natV 2, .natV 3]) =
      .natV 6 :=
  ⟨insert_par_eq_seq wAddF .bottom [.natV 1, .natV 2, .natV 3] 2
    (Nat.le_of_lt Nat.one_lt_two) wAdd_assoc wAdd_id, rfl⟩

end Fpar

namespace Fpar

/-- A `mapM` over `Option` succeeds with the pointwise map when every element
succeeds. -/
theorem mapM_eq_some {α β : Type} (l : List α) (g : α → Option β)
    (g' : α → β) (h : ∀ a ∈ l, g a = some (g' a)) :
    l.mapM g = some (l.map g') := by
  induction l with
  | nil => rfl
  | cons a t ih =>
      rw [List.mapM_cons, h a (List.mem_cons_self a t),
        ih (fun b hb => h b (List.mem_cons_of_mem a hb))]
      rfl

/-- The row-check loop of `trans` accepts a list of sequences and yields
their element lists. -/
theorem mapM_toRow (rows : List (List Value)) :
    (rows.map Value.seqV).mapM toRow = some rows := by
  induction rows with
  | nil => rfl
  | cons r rs ih => rw [List.map_cons, List.mapM_cons, ih]; rfl

/-- Reading every index below the length back with `getD` recovers the
list. -/
theorem range_getD {α : Type} (l : List α) (d : α) :
    (List.range l.length).map (fun i => l.getD i d) = l := by
  have h := map_range_getD l d id
  rwa [List.map_id] at h

/-- `get?` below the length is the defaulted read. -/
theorem get?_eq_some_getD {α : Type} (l : List α) (i : Nat)
    (h : i < l.length) (d : α) : l.get? i = some (l.getD i d) := by
  rw [List.get?_eq_getElem?, List.getElem?_eq_getElem h,
    List.getD_eq_getElem l d h]

/-- `getD` below the length commutes with `map`. -/
theorem getD_map_lt {α β : Type} (l : List α) (g : α → β) (i : Nat)
    (h : i < l.length) (d : β) (d' : α) :
    (l.map g).getD i d = g (l.getD i d') := by
  have hm : i < (l.map g).length := by rw [List.length_map]; exact h
  rw [List.getD_eq_getElem _ d hm, List.getD_eq_getElem l d' h,
    List.getElem_map]

/-- Once the accumulator of the `els` fold holds the common row length, it
never changes. -/
theorem elsOf_foldl_const (c : Nat) (rs : List (List Value))
    (h : ∀ r ∈ rs, r.length = c) :
    rs.foldl (fun e r => if e = 0 ∨ r.length < e then r.length else e) c
      = c := by
  induction rs with
  | nil => rfl
  | cons r rs ih =>
      rw [List.foldl_cons]
      have hr : r.length = c := h r (List.mem_cons_self r rs)
      have hstep : (if c = 0 ∨ r.length < c then r.length else c) = c := by
        rw [hr]; split <;> rfl
      rw [hstep]
      exact ih (fun a ha => h a (List.mem_cons_of_mem r ha))

/-- On a non-empty list of rows that all have length `c`, the `els` fold of
`trans` computes `c`. -/
theorem elsOf_uniform (rows : List (List Value)) (c : Nat)
    (hne : rows ≠ []) (hrect : ∀ r ∈ rows, r.length = c) :
    elsOf rows = c := by
  cases rows with
  | nil => exact absurd rfl hne
  | cons r rs =>
      unfold elsOf
      rw [List.foldl_cons]
      have hr : r.length = c := hrect r (List.mem_cons_self r rs)
      have hstep : (if (0 : Nat) = 0 ∨ r.length < 0 then r.length else 0)
          = c := by simpa using hr
      rw [hstep]
      exact elsOf_foldl_const c rs
        (fun a ha => hrect a (List.mem_cons_of_mem r ha))

/-- `trans` on a non-empty rectangular input (rows all of length `c`) yields
the matrix whose row `i` collects the `i`-th element of every input row. -/
theorem trans_rect (rows : List (List Value)) (c : Nat) (hne : rows ≠ [])
    (hrect : ∀ r ∈ rows, r.length = c) :
    trans (.seqV (rows.map .seqV)) = some (.seqV
      (((List.range c).map
        (fun i => rows.map (fun r => r.getD i .bottom))).map .seqV)) := by
  have h3 : (List.range c).mapM (fun i => rows.mapM (fun r => r.get? i))
      = some ((List.range c).map
        (fun i => rows.map (fun r => r.getD i .bottom))) := by
    apply mapM_eq_some
    intro i hi
    apply mapM_eq_some
    intro r hr
    exact get?_eq_some_getD r i
      (by rw [hrect r hr]; exact List.mem_range.mp hi) .bottom
  simp only [trans, mapM_toRow rows, elsOf_uniform rows c hne hrect, h3]

/-- C8 (amended): applying `trans` twice returns the original input for every
rectangular input whose rows all share a common length of at least 1 (the
empty input, with no rows at all, is also recovered); a rectangular input
with non-zero row count and row length 0 is not (see the counterexample). -/
theorem trans_trans_rect (rows : List (List Value)) (c : Nat) (hc : 1 ≤ c)
    (hrect : ∀ r ∈ rows, r.length = c) :
    transTwice (.seqV (rows.map .seqV)) = some (.seqV (rows.map .seqV)) := by
  rcases eq_or_ne rows [] with hnil | hne
  · subst hnil; rfl
  · have h1 := trans_rect rows c hne hrect
    unfold transTwice
    rw [h1, Option.some_bind]
    have ht1len : ∀ r ∈ (List.range c).map
        (fun i => rows.map (fun r => r.getD i .bottom)),
        r.length = rows.length := by
      intro r hr
      rcases List.mem_map.mp hr with ⟨i, _, hir⟩
      rw [← hir, List.length_map]
    have ht1ne : (List.range c).map
        (fun i => rows.map (fun r => r.getD i .bottom)) ≠ [] := by
      apply List.ne_nil_of_length_pos
      rw [List.length_map, List.length_range]
      omega
    rw [trans_rect _ rows.length ht1ne ht1len]
    have ht2 : (List.range rows.length).map (fun i =>
        ((List.range c).map
          (fun j => rows.map (fun r => r.getD j .bottom))).map
            (fun r => r.getD i .bottom)) = rows := by
      have hcongr : ∀ i ∈ List.range rows.length,
          ((List.range c).map
            (fun j => rows.map (fun r => r.getD j .bottom))).map
              (fun r => r.getD i .bottom) = rows.getD i [] := by
        intro i hi
        have hi' : i < rows.length := List.mem_range.mp hi
        rw [List.map_map]
        have hpt : ∀ j ∈ List.range c,
            ((fun r => r.getD i .bottom) ∘
              (fun j => rows.map (fun r => r.getD j .bottom))) j
              = (rows.getD i []).getD j .bottom := by
          intro j _
          simp only [Function.comp_apply]
          exact getD_map_lt rows (fun r => r.getD j Value.bottom) i hi'
            Value.bottom []
        rw [List.map_congr_left hpt]
        have hmem : rows.getD i [] ∈ rows := by
          rw [List.getD_eq_getElem rows [] hi']
          exact List.getElem_mem hi'
        have hlen : (rows.getD i []).length = c := hrect _ hmem
        rw [← hlen]
        exact range_getD _ _
      rw [List.map_congr_left hcongr]
      exact range_getD rows []
    rw [ht2]

/-- Witness for C8: the 2-by-2 rectangular matrix `⟨⟨1, 2⟩, ⟨3, 4⟩⟩` is
recovered by a double transpose. -/
theorem trans_trans_rect_witness :
    transTwice (.seqV [.seqV [.natV 1, .natV 2], .seqV [.natV 3, .natV 4]])
      = some (.seqV [.seqV [.natV 1, .natV 2],
          .seqV [.natV 3, .natV 4]]) :=
  trans_trans_rect [[.natV 1, .natV 2], [.natV 3, .natV 4]] 2
    (Nat.le_of_lt Nat.one_lt_two)
    (by
      intro r hr
      simp only [List.mem_cons, List.not_mem_nil, or_false] at hr
      rcases hr with rfl | rfl <;> rfl)

end Fpar
